import Mathlib

/-!
Verification of the hadith-hub offline reader core: a shallow embedding of the
normalization/transliteration functions, the in-memory mirror and persistent
store operations, the import pipeline, the search engine, and the search-result
cache, with theorems about the properties the design document states.

Text is modelled as a list of Unicode scalar values (Lean `Char`).  All the
characters manipulated by the program (Arabic letters, diacritics, ASCII) live
in the Basic Multilingual Plane, where JavaScript UTF-16 code-unit indices and
scalar-value indices coincide, so `String.prototype` index arithmetic is
faithfully mirrored by list indices.
-/

namespace HadithHub

/-- Program strings: a list of Unicode scalar values. -/
abbrev Str := List Char

/-! ### JavaScript string primitives used by the program -/

/-- Whitespace recognised by `String.prototype.trim` (the code points that can
actually occur in this program's queries). -/
def isJsSpace (c : Char) : Bool :=
  c == ' ' || c == '\t' || c == '\n' || c == '\r' ||
  c.toNat == 0xB || c.toNat == 0xC || c.toNat == 0xA0 || c.toNat == 0xFEFF

/-- `s.trim()`: strip leading and trailing whitespace. -/
def jsTrim (s : Str) : Str :=
  ((s.dropWhile isJsSpace).reverse.dropWhile isJsSpace).reverse

/-- Does `pat` occur in `s` starting at position `i`? -/
def occursAt (s pat : Str) (i : Nat) : Bool :=
  pat.isPrefixOf (s.drop i)

/-- `s.indexOf(pat, start)`: the least position `i ≥ min start s.length` at
which `pat` occurs in `s` (`none` for JavaScript's `-1`).  For the empty
pattern this returns `min start s.length`, as in JavaScript. -/
def indexOfFrom (s pat : Str) (start : Nat) : Option Nat :=
  (List.range (s.length + 1)).find? fun i =>
    decide (min start s.length ≤ i) && occursAt s pat i

/-- `s.substring(a, b)` for `a ≤ b`: the characters at positions `[a, b)`. -/
def jsSubstring (s : Str) (a b : Nat) : Str :=
  (s.take b).drop a

/-- `parts.join(' ')`. -/
def joinSpaces : List Str → Str
  | [] => []
  | [p] => p
  | p :: q :: ps => p ++ ' ' :: joinSpaces (q :: ps)

/-! ### `JSON.parse`, restricted to the shapes the program stores

Page text is a serialized JSON array of paragraph strings.  We embed
`JSON.parse` on exactly the value shapes the program distinguishes: an array
of strings (`arrStr`) and a single top-level string (`strVal`); every other
input yields `none`, which the callers treat as the parse throwing. -/

inductive JsonLite where
  | arrStr : List Str → JsonLite
  | strVal : Str → JsonLite
deriving DecidableEq

/-- JSON insignificant whitespace. -/
def jsonWs (c : Char) : Bool :=
  c == ' ' || c == '\t' || c == '\n' || c == '\r'

def skipWs (s : Str) : Str := s.dropWhile jsonWs

/-- Parse the body of a JSON string (the opening quote already consumed),
returning the decoded content and the remainder after the closing quote.
Unicode escapes are not decoded (the stored corpus does not use them); raw
control characters are rejected as JSON requires. -/
def parseJsonStr : Str → Option (Str × Str)
  | [] => none
  | '"' :: rest => some ([], rest)
  | '\\' :: c :: rest =>
    let esc : Option Char :=
      if c = '"' then some '"'
      else if c = '\\' then some '\\'
      else if c = '/' then some '/'
      else if c = 'n' then some '\n'
      else if c = 't' then some '\t'
      else if c = 'r' then some '\r'
      else if c = 'b' then some (Char.ofNat 8)
      else if c = 'f' then some (Char.ofNat 12)
      else none
    match esc with
    | none => none
    | some e => (parseJsonStr rest).map fun p => (e :: p.1, p.2)
  | c :: rest =>
    if c.toNat < 0x20 then none
    else (parseJsonStr rest).map fun p => (c :: p.1, p.2)

/-- Parse the elements of a nonempty JSON string array, positioned just after
the `[` (or after a separating comma), up to and including the closing `]`. -/
def parseJsonArrTail (fuel : Nat) (s : Str) : Option (List Str × Str) :=
  match fuel with
  | 0 => none
  | fuel + 1 =>
    match skipWs s with
    | '"' :: rest =>
      match parseJsonStr rest with
      | none => none
      | some (elem, rest2) =>
        match skipWs rest2 with
        | ',' :: rest3 => (parseJsonArrTail fuel rest3).map fun p => (elem :: p.1, p.2)
        | ']' :: rest3 => some ([elem], rest3)
        | _ => none
    | _ => none

/-- `JSON.parse`, restricted to arrays of strings and top-level strings. -/
def jsJSONParse (s : Str) : Option JsonLite :=
  match skipWs s with
  | '[' :: rest =>
    match skipWs rest with
    | ']' :: rest2 => if skipWs rest2 = [] then some (.arrStr []) else none
    | _ =>
      match parseJsonArrTail (s.length + 1) rest with
      | some (es, r) => if skipWs r = [] then some (.arrStr es) else none
      | none => none
  | '"' :: rest =>
    match parseJsonStr rest with
    | some (v, r) => if skipWs r = [] then some (.strVal v) else none
    | none => none
  | _ => none

/-! ### Arabic normalization (`normalizeArabic` in `App.tsx`) -/

/-- The regex `/[ً-ٰٟ]/`: Arabic tashkeel to strip. -/
def ARABIC_DIACRITICS (c : Char) : Bool :=
  (0x64B ≤ c.toNat && c.toNat ≤ 0x65F) || c.toNat == 0x670

/-- `.replace(/[أإآٱ]/g, 'ا')`, per character. -/
def alefFold (c : Char) : Char :=
  if c == 'أ' || c == 'إ' || c == 'آ' || c == 'ٱ' then 'ا' else c

/-- `.replace(/[ىئ]/g, 'ي')`, per character. -/
def yaaFold (c : Char) : Char :=
  if c == 'ى' || c == 'ئ' then 'ي' else c

/-- `.replace(/ة/g, 'ه')`, per character. -/
def taaFold (c : Char) : Char :=
  if c == 'ة' then 'ه' else c

/-- The class `[ؤء]`, removed by the final `.replace(/[ؤء]/g, '')`. -/
def isHamzaChar (c : Char) : Bool :=
  c == 'ؤ' || c == 'ء'

/-- `normalizeArabic` from `App.tsx`: strip diacritics, fold Alef, Yaa and
Taa-Marbuta variants, remove Hamza forms.  Each regex is a single-character
class replaced globally, so each pass is a per-character map or filter. -/
def normalizeArabic (s : Str) : Str :=
  ((((s.filter fun c => !ARABIC_DIACRITICS c).map alefFold).map yaaFold).map taaFold).filter
    fun c => !isHamzaChar c

/-- The action of `normalizeArabic` on one character: dropped or rewritten. -/
def normChar (c : Char) : Option Char :=
  if ARABIC_DIACRITICS c then none
  else
    let d := taaFold (yaaFold (alefFold c))
    if isHamzaChar d then none else some d

/-! ### Roman-to-Arabic transliteration (`romanToArabic`, `ROMAN_TO_ARABIC`) -/

/-- `String.prototype.toLowerCase`, per character (the table keys and the
queries fed to `romanToArabic` are ASCII). -/
def asciiLower (c : Char) : Char :=
  if 'A' ≤ c && c ≤ 'Z' then Char.ofNat (c.toNat + 32) else c

/-- Case-insensitive literal prefix test, as matched by `new RegExp(key, 'gi')`
for the table's regex-metacharacter-free keys. -/
def ciPrefix : Str → Str → Bool
  | [], _ => true
  | _ :: _, [] => false
  | p :: ps, c :: cs => (asciiLower p == asciiLower c) && ciPrefix ps cs

/-- One global, case-insensitive `result.replace(regex, replacement)` pass:
scan left to right, substitute each non-overlapping occurrence of `pat`, and
continue after the substituted text (never rescanning it).  `pat` is nonempty
(every table key is). -/
def replaceAllCIAux (pat rep : Str) : Nat → Str → Str
  | 0, s => s
  | _, [] => []
  | fuel + 1, c :: rest =>
    if ciPrefix pat (c :: rest) then
      rep ++ replaceAllCIAux pat rep fuel (List.drop (pat.length - 1) rest)
    else c :: replaceAllCIAux pat rep fuel rest

def replaceAllCI (pat rep s : Str) : Str := replaceAllCIAux pat rep s.length s

def RA (k v : String) : Str × Str := (k.data, v.data)

/-- The `ROMAN_TO_ARABIC` substitution table, in source (insertion) order,
which is the order `Object.keys` yields (no key is an array index). -/
def ROMAN_TO_ARABIC : List (Str × Str) := [
  RA "ahlulbayt" "اهل البيت", RA "ahlul" "اهل",
  RA "allah" "الله", RA "muhammad" "محمد", RA "mohammad" "محمد",
  RA "hussein" "حسين", RA "husain" "حسين", RA "hasan" "حسن",
  RA "hadith" "حديث", RA "quran" "قران", RA "rasul" "رسول",
  RA "salat" "صلاة", RA "zakat" "زكاة", RA "sawm" "صوم",
  RA "iman" "ايمان", RA "islam" "اسلام", RA "muslim" "مسلم",
  RA "deen" "دين", RA "kitab" "كتاب", RA "rabb" "رب",
  RA "jannah" "جنه", RA "jahannam" "جهنم", RA "shaytan" "شيطان",
  RA "malaika" "ملائكه", RA "sahabah" "صحابه", RA "sunnah" "سنه",
  RA "fatwa" "فتوى", RA "fiqh" "فقه", RA "masjid" "مسجد",
  RA "kabah" "كعبه", RA "makkah" "مكه", RA "madinah" "مدينه",
  RA "imam" "امام", RA "nabi" "نبي", RA "hajj" "حج",
  RA "bayt" "بيت", RA "ilm" "علم", RA "aql" "عقل",
  RA "nafs" "نفس", RA "ruh" "روح", RA "qalb" "قلب",
  RA "ali" "علي", RA "din" "دين", RA "ahl" "اهل",
  RA "th" "ث", RA "kh" "خ", RA "dh" "ذ", RA "sh" "ش", RA "gh" "غ",
  RA "aa" "ا", RA "ee" "ي", RA "ii" "ي", RA "oo" "و", RA "uu" "و",
  RA "al" "ال", RA "h2" "ه",
  RA "a" "ا", RA "b" "ب", RA "t" "ت", RA "j" "ج", RA "h" "ح",
  RA "d" "د", RA "r" "ر", RA "z" "ز", RA "s" "س", RA "S" "ص",
  RA "D" "ض", RA "T" "ط", RA "Z" "ظ", ([Char.ofNat 39], "ع".data), RA "f" "ف", RA "q" "ق",
  RA "k" "ك", RA "l" "ل", RA "m" "م", RA "n" "ن", RA "w" "و", RA "y" "ي",
  RA "i" "ي", RA "u" "و", RA "o" "و", RA "e" "ي"]

/-- Insert an entry into a length-descending list, after all entries of equal
or greater key length (stability of `Array.prototype.sort`). -/
def sortKeysInsert (x : Str × Str) : List (Str × Str) → List (Str × Str)
  | [] => [x]
  | y :: ys => if y.1.length < x.1.length then x :: y :: ys else y :: sortKeysInsert x ys

/-- `Object.keys(ROMAN_TO_ARABIC).sort((a, b) => b.length - a.length)`:
stable sort of the table by descending key length (entries carried along). -/
def sortedKeys : List (Str × Str) :=
  ROMAN_TO_ARABIC.foldl (fun acc x => sortKeysInsert x acc) []

/-- `romanToArabic` from `App.tsx`: lower-case the input, then apply each table
entry as a global case-insensitive replacement, longest key first. -/
def romanToArabic (text : Str) : Str :=
  sortedKeys.foldl (fun result kv => replaceAllCI kv.1 kv.2 result) (text.map asciiLower)

/-- Direct lookup of a key's replacement in the `ROMAN_TO_ARABIC` table. -/
def tableLookup (k : Str) : Str :=
  ((ROMAN_TO_ARABIC.find? fun kv => kv.1 = k).map fun kv => kv.2).getD []

/-! ### Sect classification (`SUNNI_BOOK_IDS`, `getBookSect`) -/

inductive Sect where
  | shia | sunni
deriving DecidableEq

def SUNNI_BOOK_IDS : List Str :=
  ["59624", "59622", "109591", "17077", "02384",
   "00779", "25568", "66642", "01484", "124740"].map String.data

/-- `getBookSect`: books on the Sunni denylist are Sunni, all others Shia. -/
def getBookSect (bookId : Str) : Sect :=
  if SUNNI_BOOK_IDS.contains bookId then .sunni else .shia

/-! ### Data model -/

structure Book where
  id : Str
  title : Str
  author : Option Str := none
  volumes : Nat := 0
  importedAt : Nat := 0
deriving DecidableEq

structure VolumeInfo where
  bookId : Str
  volume : Nat
  totalPages : Nat
  importedAt : Nat := 0
deriving DecidableEq

structure Page where
  bookId : Str
  volume : Nat
  page : Nat
  text : Str
deriving DecidableEq

structure SearchResult where
  bookId : Str
  bookTitle : Str
  volume : Nat
  page : Nat
  snippet : Str
  matchIndex : Nat
deriving DecidableEq

inductive SearchMode where
  | exact | root
deriving DecidableEq

inductive InputMode where
  | arabic | roman
deriving DecidableEq

inductive SectChoice where
  | all | shia | sunni
deriving DecidableEq

/-- The string comparison `getBookSect(id) !== searchSectFilter` (only reached
when the filter is not `all`). -/
def sectEq (f : SectChoice) (s : Sect) : Bool :=
  match f, s with
  | .shia, .shia => true
  | .sunni, .sunni => true
  | _, _ => false

/-- The candidate predicate of `performSearch`'s `pagesStore.filter`: sect
filter, then selected-books filter. -/
def pageFilter (searchSectFilter : SectChoice) (searchSelectedBooks : List Str)
    (page : Page) : Bool :=
  (searchSectFilter = .all || sectEq searchSectFilter (getBookSect page.bookId)) &&
  (searchSelectedBooks.isEmpty || searchSelectedBooks.contains page.bookId)

/-- `JSON.parse(page.text)` followed by the `Array.isArray` check: a paragraph
array is joined with spaces, everything else leaves the raw text in place. -/
def flatText (text : Str) : Str :=
  match jsJSONParse text with
  | some (.arrStr ps) => joinSpaces ps
  | _ => text

/-- JavaScript's falsy-or: `s || d` for an optional string. -/
def orElseStr : Option Str → Str → Str
  | some s, d => if s = [] then d else s
  | none, d => d

/-- The snippet built inside `performSearch`'s match loop: the original text
windowed from `searchIndex - 50` to `searchIndex + termLen + 50`, with a
`'...'` marker prepended when cut at the start and appended when cut at the
end. -/
def mkSnippet (textToSearch : Str) (searchIndex termLen : Nat) : Str :=
  let start := searchIndex - 50
  let stop := min textToSearch.length (searchIndex + termLen + 50)
  let snippet := jsSubstring textToSearch start stop
  let snippet := if 0 < start then '.' :: '.' :: '.' :: snippet else snippet
  if stop < textToSearch.length then snippet ++ ['.', '.', '.'] else snippet

/-- The `while ((searchIndex = indexOf(...)) !== -1)` loop of `performSearch`:
find the term from `searchIndex`, emit a result, resume at the end of the
match, and stop after the third match on the page.  `fuel` is an upper bound
on the remaining iterations; the callers pass `3`, which the
`matchCount >= 3` break never exceeds. -/
def searchPageLoop (textForMatching term : Str) (mkRes : Nat → Nat → SearchResult) :
    Nat → Nat → Nat → List SearchResult
  | 0, _, _ => []
  | fuel + 1, searchIndex, matchCount =>
    match indexOfFrom textForMatching term searchIndex with
    | none => []
    | some i =>
      let r := mkRes i matchCount
      if 3 ≤ matchCount + 1 then [r]
      else r :: searchPageLoop textForMatching term mkRes fuel (i + term.length) (matchCount + 1)

/-- The per-page body of `performSearch`'s scan over the filtered pages. -/
def pageResults (booksStore : List Book) (searchMode : SearchMode)
    (normalizedSearchTerm : Str) (page : Page) : List SearchResult :=
  let textToSearch := flatText page.text
  let textForMatching :=
    if searchMode = .root then normalizeArabic textToSearch else textToSearch
  let book := booksStore.find? fun b => b.id = page.bookId
  searchPageLoop textForMatching normalizedSearchTerm
    (fun i cnt =>
      { bookId := page.bookId
        bookTitle := orElseStr (book.map Book.title) page.bookId
        volume := page.volume
        page := page.page
        snippet := mkSnippet textToSearch i normalizedSearchTerm.length
        matchIndex := cnt })
    3 0 0

/-- The term the search pipeline actually matches: trim, transliterate in
roman input mode, normalize in root mode. -/
def searchTermOf (inputMode : InputMode) (searchMode : SearchMode) (query : Str) : Str :=
  let searchTerm := jsTrim query
  let searchTerm := if inputMode = .roman then romanToArabic searchTerm else searchTerm
  if searchMode = .root then normalizeArabic searchTerm else searchTerm

/-- The text a page is matched against: its flat text, normalized in root
mode. -/
def matchText (searchMode : SearchMode) (page : Page) : Str :=
  if searchMode = .root then normalizeArabic (flatText page.text) else flatText page.text

/-- `performSearch` from `App.tsx`.  A blank query returns early without
producing a result list (`none`); otherwise the filtered pages are scanned in
order and each page contributes its capped match results. -/
def performSearch (booksStore : List Book) (pagesStore : List Page)
    (inputMode : InputMode) (searchMode : SearchMode)
    (searchSectFilter : SectChoice) (searchSelectedBooks : List Str)
    (query : Str) : Option (List SearchResult) :=
  if jsTrim query = [] then none
  else
    let normalizedSearchTerm := searchTermOf inputMode searchMode query
    let filteredPages := pagesStore.filter (pageFilter searchSectFilter searchSelectedBooks)
    some (filteredPages.flatMap (pageResults booksStore searchMode normalizedSearchTerm))

/-- The composite key identifying a page record. -/
def pageKey (p : Page) : Str × Nat × Nat := (p.bookId, p.volume, p.page)

/-- The key fields a search result reports. -/
def resultKey (r : SearchResult) : Str × Nat × Nat := (r.bookId, r.volume, r.page)

/-- The snippet the design document describes, stated from its words: the
original (non-normalized) page text windowed ±50 characters around a match
occurrence at position `occ`, with a `'...'` marker prepended exactly when the
window is cut at the start of the text and appended exactly when it is cut at
the end. -/
def claimSnippet (orig : Str) (occ qLen : Nat) : Str :=
  let start := occ - 50
  let stop := min orig.length (occ + qLen + 50)
  let w := jsSubstring orig start stop
  let w := if 0 < start then '.' :: '.' :: '.' :: w else w
  if stop < orig.length then w ++ ['.', '.', '.'] else w

/-! ### Concrete corpora used as counterexamples and witnesses -/

/-- A page whose text matches the query "علم" only after normalization (a
kasra sits inside the word). -/
def pageC1 : Page := ⟨"b1".data, 1, 1, "العِلم".data⟩

/-- A page used for the blank-query counterexample: its flat text contains the
space character, so its normalization contains the normalization of `" "`. -/
def pageB : Page := ⟨"b1".data, 1, 1, "ا ب".data⟩

/-- 60 diacritics, then the letter ب, then 60 copies of ت: normalization
shifts the match position by 60. -/
def origC2 : Str := List.replicate 60 'ً' ++ 'ب' :: List.replicate 60 'ت'

def pageC2 : Page := ⟨"b1".data, 1, 1, origC2⟩

/-- The snippet the code actually produces on `pageC2` for query "ب" in root
mode: the first 51 characters of the original text (all diacritics), plus a
trailing ellipsis. -/
def snippetC2 : Str := List.replicate 51 'ً' ++ ['.', '.', '.']

/-- A plain page used as the exact-mode witness corpus. -/
def pageW : Page := ⟨"b1".data, 1, 1, "ابجد".data⟩

/-- A page containing ten occurrences of the two-letter query "اب". -/
def pageC5 : Page := ⟨"b1".data, 1, 1, String.data "اباباباباباباباباباب"⟩

/-- The result list produced on `pageC2` for query "ب" in root mode. -/
def rsC2 : List SearchResult := [⟨"b1".data, "b1".data, 1, 1, snippetC2, 0⟩]

/-- The result list produced on `pageW` for query "ب" in exact mode. -/
def rsW : List SearchResult := [⟨"b1".data, "b1".data, 1, 1, "ابجد".data, 0⟩]

/-- The result list produced on `pageC5` for query "اب": ten occurrences, but
only three results, each with the whole (short) text as its snippet. -/
def rsC5 : List SearchResult :=
  [⟨"b1".data, "b1".data, 1, 1, String.data "اباباباباباباباباباب", 0⟩,
   ⟨"b1".data, "b1".data, 1, 1, String.data "اباباباباباباباباباب", 1⟩,
   ⟨"b1".data, "b1".data, 1, 1, String.data "اباباباباباباباباباب", 2⟩]

/-! ### Persistent store and mirror (IndexedDB layer of `App.tsx`)

The three IndexedDB object stores hold records with unique key paths
(`id`, `[bookId, volume]`, `[bookId, volume, page]`); `put` replaces the
record with the same key or adds a new one.  We model each store as a list
and `put` as replace-first-or-append, which coincides with IndexedDB on
stores whose keys are unique. -/

structure AppDB where
  books : List Book
  volumes : List VolumeInfo
  pages : List Page
deriving DecidableEq

/-- The state the import/delete handlers touch: the three in-memory mirror
arrays (`booksStore`, `volumesStore`, `pagesStore`) and the durable store. -/
structure AppState where
  booksStore : List Book
  volumesStore : List VolumeInfo
  pagesStore : List Page
  db : AppDB
deriving DecidableEq

/-- Key equality for the `pages` store's key path `[bookId, volume, page]`. -/
def pageKeyEq (p q : Page) : Bool :=
  p.bookId == q.bookId && p.volume == q.volume && p.page == q.page

/-- Does a page belong to volume `vol` of book `id`? -/
def pageVolKey (id : Str) (vol : Nat) (p : Page) : Bool :=
  p.bookId == id && p.volume == vol

/-- Does a volume record belong to volume `vol` of book `id`? -/
def volKey (id : Str) (vol : Nat) (v : VolumeInfo) : Bool :=
  v.bookId == id && v.volume == vol

/-- `saveBookToDB`: `put` on the `books` store. -/
def dbPutBook (b : Book) : List Book → List Book
  | [] => [b]
  | q :: l => if q.id == b.id then b :: l else q :: dbPutBook b l

/-- `saveVolumeToDB`: `put` on the `volumes` store. -/
def dbPutVolume (v : VolumeInfo) : List VolumeInfo → List VolumeInfo
  | [] => [v]
  | q :: l => if q.bookId == v.bookId && q.volume == v.volume then v :: l
              else q :: dbPutVolume v l

/-- One `put` of `savePagesToDB`'s transaction. -/
def dbPutPage (p : Page) : List Page → List Page
  | [] => [p]
  | q :: l => if pageKeyEq q p then p :: l else q :: dbPutPage p l

/-- `savePagesToDB(pages)`: the batch of `put`s, in order. -/
def dbSavePages (ps : List Page) (l : List Page) : List Page :=
  ps.foldl (fun acc p => dbPutPage p acc) l

/-- `deletePagesFromDB(bookId, volume)`: delete every page record of that
`(bookId, volume)` via the `bookVolume` index cursor. -/
def dbDeletePagesFor (id : Str) (vol : Nat) (l : List Page) : List Page :=
  l.filter fun p => !pageVolKey id vol p

/-- `deleteBookFromDB(bookId)`: delete the book record, then every volume
record and every page record with that `bookId`. -/
def dbDeleteBook (bookId : Str) (db : AppDB) : AppDB :=
  { books := db.books.filter fun b => !(b.id == bookId)
    volumes := db.volumes.filter fun v => !(v.bookId == bookId)
    pages := db.pages.filter fun p => !(p.bookId == bookId) }

/-! ### Import pipeline (`handleFileImport`; the per-volume body is the same
state transition as the one in `downloadSelectedVolumes` / `downloadAllBySect`,
whose statements are ordered differently but assign the same final values) -/

structure VolManifest where
  volume : Nat
  totalPages : Nat
deriving DecidableEq

structure Manifest where
  id : Str
  title : Str
  author : Option Str := none
  volumes : List VolManifest
deriving DecidableEq

/-- The archive's page files, addressed by `volumes/<volume>/<page>.txt`. -/
abbrev Zip := List ((Nat × Nat) × Str)

def zipFile (z : Zip) (volume page : Nat) : Option Str :=
  (z.find? fun e => e.1 == (volume, page)).map fun e => e.2

/-- The pages read for one declared volume: `for (let i = 1; i <= totalPages;
i++)`, silently skipping missing files. -/
def readVolumePages (z : Zip) (id : Str) (vi : VolManifest) : List Page :=
  (List.range' 1 vi.totalPages).filterMap fun p =>
    (zipFile z vi.volume p).map fun text => Page.mk id vi.volume p text

/-- One iteration of the per-volume import loop: replace the volume's pages in
the mirror, delete-then-save them in the store, and upsert the volume record
in mirror and store.  `now` stands for `Date.now()`. -/
def importVolume (id : Str) (z : Zip) (now : Nat) (st : AppState) (vi : VolManifest) :
    AppState :=
  let pages := readVolumePages z id vi
  let newVolume : VolumeInfo := ⟨id, vi.volume, vi.totalPages, now⟩
  { booksStore := st.booksStore
    volumesStore := (st.volumesStore.filter fun v => !volKey id vi.volume v) ++ [newVolume]
    pagesStore := (st.pagesStore.filter fun pg => !pageVolKey id vi.volume pg) ++ pages
    db := { books := st.db.books
            volumes := dbPutVolume newVolume st.db.volumes
            pages := dbSavePages pages (dbDeletePagesFor id vi.volume st.db.pages) } }

/-- Replace the first book with the given id (the source mutates the object
returned by `find` in place). -/
def replaceFirstBook (id : Str) (nb : Book) : List Book → List Book
  | [] => []
  | b :: bs => if b.id == id then nb :: bs else b :: replaceFirstBook id nb bs

/-- The book upsert at the end of the import: an existing book keeps its
record with `volumes` raised to the manifest's maximum volume number; a new
book is appended.  (`Math.max(...)` over the manifest's volume numbers; the
handlers are only invoked with nonempty manifests, where the JavaScript
`-Infinity` base is unobservable, so the fold starts at `0`.) -/
def importBook (m : Manifest) (now : Nat) (st : AppState) : AppState :=
  let maxVolume := (m.volumes.map VolManifest.volume).foldl max 0
  match st.booksStore.find? fun b => b.id == m.id with
  | some existingBook =>
    let updated := { existingBook with volumes := max existingBook.volumes maxVolume }
    { st with booksStore := replaceFirstBook m.id updated st.booksStore
              db := { st.db with books := dbPutBook updated st.db.books } }
  | none =>
    let newBook : Book := ⟨m.id, m.title, m.author, maxVolume, now⟩
    { st with booksStore := st.booksStore ++ [newBook]
              db := { st.db with books := dbPutBook newBook st.db.books } }

/-- `handleFileImport` after the manifest has been parsed: the per-volume
loop over `manifest.volumes`, then the book upsert. -/
def handleFileImport (m : Manifest) (z : Zip) (now : Nat) (st : AppState) : AppState :=
  importBook m now (m.volumes.foldl (importVolume m.id z now) st)

/-! ### Book deletion (`handleDeleteBook`, `deleteBookFromDB`) -/

/-- `handleDeleteBook`: filter the book, its volumes and its pages — and those
of the paired `_en` translation book — out of the three mirrors, then cascade
the deletes in the store for both ids. -/
def handleDeleteBook (book : Book) (st : AppState) : AppState :=
  let translationBookId := book.id ++ "_en".data
  { booksStore := st.booksStore.filter fun b =>
      !(b.id == book.id) && !(b.id == translationBookId)
    volumesStore := st.volumesStore.filter fun v =>
      !(v.bookId == book.id) && !(v.bookId == translationBookId)
    pagesStore := st.pagesStore.filter fun p =>
      !(p.bookId == book.id) && !(p.bookId == translationBookId)
    db := dbDeleteBook translationBookId (dbDeleteBook book.id st.db) }

/-! ### Startup load (`loadFromDB`) -/

/-- `loadFromDB`: the three sequential `getAll` loads inside a `try/catch`.
Each read either yields the store's records or fails with a storage error;
a failure is caught (and only logged), so the function always resolves, the
mirrors assigned before the failure keep their new contents, and the
remaining mirrors keep their previous contents. -/
def loadFromDB (prev : AppState) (rb : Except Str (List Book))
    (rv : Except Str (List VolumeInfo)) (rp : Except Str (List Page)) : AppState :=
  match rb with
  | .error _ => prev
  | .ok books =>
    match rv with
    | .error _ => { prev with booksStore := books }
    | .ok volumes =>
      match rp with
      | .error _ => { prev with booksStore := books, volumesStore := volumes }
      | .ok pages =>
        { prev with booksStore := books, volumesStore := volumes, pagesStore := pages }

/-- Fixtures for the stale-mirror counterexample for the startup load. -/
def volStale : VolumeInfo := ⟨"b9".data, 1, 7, 0⟩

def bookFresh : Book := ⟨"b1".data, "t".data, none, 1, 0⟩

def prevC8 : AppState :=
  { booksStore := [], volumesStore := [volStale], pagesStore := [], db := ⟨[], [], []⟩ }

/-- Shrink-scenario fixtures: volume 1 of book `b1` holds two pages before the
re-import; the new manifest declares a single page. -/
def stShrink : AppState :=
  { booksStore := []
    volumesStore := [⟨"b1".data, 1, 2, 0⟩]
    pagesStore := [⟨"b1".data, 1, 1, "t1".data⟩, ⟨"b1".data, 1, 2, "t2".data⟩]
    db := ⟨[], [⟨"b1".data, 1, 2, 0⟩],
           [⟨"b1".data, 1, 1, "t1".data⟩, ⟨"b1".data, 1, 2, "t2".data⟩]⟩ }

def mShrink : Manifest := ⟨"b1".data, "t".data, none, [⟨1, 1⟩]⟩

def zShrink : Zip := [((1, 1), "new".data)]

/-! ### Search-result cache (performance module, `cacheSearchResults` /
`getCachedSearchResults`)

`searchCache` is a JavaScript `Map`: iteration follows insertion order, and
`set` on an existing key updates it in place.  We model it as an
insertion-ordered association list. -/

structure CachedSearch (R : Type) where
  results : List R
  timestamp : Nat
deriving DecidableEq

def CACHE_SIZE : Nat := 50

def CACHE_TTL : Nat := 5 * 60 * 1000

/-- `Map.prototype.set`: update the existing entry in place, else append. -/
def mapSet {R : Type} (key : Str) (v : CachedSearch R) :
    List (Str × CachedSearch R) → List (Str × CachedSearch R)
  | [] => [(key, v)]
  | (k, w) :: l => if k == key then (key, v) :: l else (k, w) :: mapSet key v l

/-- `Map.prototype.delete`. -/
def mapDelete {R : Type} (key : Str) :
    List (Str × CachedSearch R) → List (Str × CachedSearch R)
  | [] => []
  | (k, w) :: l => if k == key then l else (k, w) :: mapDelete key l

/-- `Map.prototype.get`. -/
def mapGet {R : Type} (key : Str) (l : List (Str × CachedSearch R)) :
    Option (CachedSearch R) :=
  (l.find? fun e => e.1 == key).map fun e => e.2

/-- `getCachedSearchResults`: a hit younger than `CACHE_TTL` returns the
cached results; a present-but-stale entry is deleted and a miss returned.
(`Date.now() - timestamp` can be negative in JavaScript, in which case it is
`< CACHE_TTL`; `Nat` truncated subtraction yields `0`, agreeing with the
comparison.)  Returns the result and the updated map. -/
def getCachedSearchResults {R : Type} (now : Nat) (cacheKey : Str)
    (m : List (Str × CachedSearch R)) : Option (List R) × List (Str × CachedSearch R) :=
  match mapGet cacheKey m with
  | some cached =>
    if now - cached.timestamp < CACHE_TTL then (some cached.results, m)
    else (none, mapDelete cacheKey m)
  | none => (none, m)

/-- `cacheSearchResults`: at capacity, delete the first (oldest) key — unless
that key is the empty string, which is falsy and skips the `if (oldestKey)`
guard — then `set` the new entry. -/
def cacheSearchResults {R : Type} (now : Nat) (cacheKey : Str) (results : List R)
    (m : List (Str × CachedSearch R)) : List (Str × CachedSearch R) :=
  let m :=
    if CACHE_SIZE ≤ m.length then
      match m with
      | [] => m
      | (k, _) :: _ => if k = [] then m else mapDelete k m
    else m
  mapSet cacheKey ⟨results, now⟩ m

/-- Insert a sequence of `(key, results, timestamp)` triples in order. -/
def insertAll {R : Type} (items : List (Str × List R × Nat))
    (m : List (Str × CachedSearch R)) : List (Str × CachedSearch R) :=
  items.foldl (fun acc it => cacheSearchResults it.2.2 it.1 it.2.1 acc) m

/-- The map entry a triple inserts. -/
def entryOf {R : Type} (it : Str × List R × Nat) : Str × CachedSearch R :=
  (it.1, ⟨it.2.1, it.2.2⟩)

/-- 51 distinct single-character keys inserted at time 0, used as the cache
eviction witness. -/
def itemsC9 : List (Str × List Nat × Nat) :=
  (List.range 51).map fun i => ([Char.ofNat (65 + i)], [i], 0)

/-! ### Offloaded search: the worker-side scan (`search.worker.ts`) and the
inline fallback (`performSearchMainThread` in `useSearchWorker.ts`) -/

/-- The `{ id, title }` book references posted to the worker. -/
structure BookRef where
  id : Str
  title : Str
deriving DecidableEq

/-- `normalizeArabic` as defined in `search.worker.ts`: diacritics, Alef
variants, Waw-with-Hamza → Waw, Yaa-with-Hamza → Yaa, Taa-Marbuta → Haa,
Alef-Maqsura → Yaa, tatweel removed. -/
def wawHamzaFold (c : Char) : Char := if c == 'ؤ' then 'و' else c

def yaaHamzaFold (c : Char) : Char := if c == 'ئ' then 'ي' else c

def alefMaqsuraFold (c : Char) : Char := if c == 'ى' then 'ي' else c

def isTatweel (c : Char) : Bool := c == 'ـ'

def normalizeArabicWorker (s : Str) : Str :=
  ((((((s.filter fun c => !ARABIC_DIACRITICS c).map alefFold).map wawHamzaFold).map
    yaaHamzaFold).map taaFold).map alefMaqsuraFold).filter fun c => !isTatweel c

/-- The word-for-word copy of the worker's normalization inside
`performSearchMainThread`. -/
def normalizeArabicHook (s : Str) : Str :=
  ((((((s.filter fun c => !ARABIC_DIACRITICS c).map alefFold).map wawHamzaFold).map
    yaaHamzaFold).map taaFold).map alefMaqsuraFold).filter fun c => !isTatweel c

/-- `extractSnippet` from `search.worker.ts` (the worker calls it with
`length = 150`; its declared default is 100). -/
def extractSnippet (text : Str) (matchIndex len : Nat) : Str :=
  let start := matchIndex - len / 2
  let stop := min text.length (matchIndex + len / 2)
  let snippet := jsSubstring text start stop
  let snippet := if 0 < start then '.' :: '.' :: '.' :: snippet else snippet
  if stop < text.length then snippet ++ ['.', '.', '.'] else snippet

/-- `new Map(books.map(b => [b.id, b.title])).get(id)`: duplicate ids
overwrite, so the last entry wins. -/
def bookMapGet (books : List BookRef) (id : Str) : Option Str :=
  (books.reverse.find? fun b => b.id == id).map fun b => b.title

/-- `s.replace(pat, rep)` with a string pattern: replace the first occurrence
only. -/
def jsReplaceFirst (s pat rep : Str) : Str :=
  match indexOfFrom s pat 0 with
  | none => s
  | some i => s.take i ++ rep ++ s.drop (i + pat.length)

/-- `performSearch` from `search.worker.ts`: one result per page holding the
first match, pages with unparseable text skipped. -/
def performSearchWorker (query : Str) (mode : SearchMode) (pages : List Page)
    (books : List BookRef) : List SearchResult :=
  let normalizedQuery := if mode = .root then normalizeArabicWorker query else query
  pages.flatMap fun page =>
    match jsJSONParse page.text with
    | none => []
    | some v =>
      let fullText := match v with | .arrStr ps => joinSpaces ps | .strVal s => s
      let searchText := if mode = .root then normalizeArabicWorker fullText else fullText
      match indexOfFrom searchText normalizedQuery 0 with
      | none => []
      | some matchIndex =>
        [{ bookId := page.bookId
           bookTitle :=
             orElseStr (bookMapGet books (jsReplaceFirst page.bookId "_en".data []))
               "Unknown".data
           volume := page.volume
           page := page.page
           snippet := extractSnippet fullText matchIndex 150
           matchIndex := matchIndex }]

/-- `performSearchMainThread` from `useSearchWorker.ts`: the inline fallback,
with the snippet window written out literally (±75). -/
def performSearchMainThread (query : Str) (mode : SearchMode) (pages : List Page)
    (books : List BookRef) : List SearchResult :=
  let normalizedQuery := if mode = .root then normalizeArabicHook query else query
  pages.flatMap fun page =>
    match jsJSONParse page.text with
    | none => []
    | some v =>
      let fullText := match v with | .arrStr ps => joinSpaces ps | .strVal s => s
      let searchText := if mode = .root then normalizeArabicHook fullText else fullText
      match indexOfFrom searchText normalizedQuery 0 with
      | none => []
      | some matchIndex =>
        let start := matchIndex - 75
        let stop := min fullText.length (matchIndex + 75)
        let snippet := jsSubstring fullText start stop
        let snippet := if 0 < start then '.' :: '.' :: '.' :: snippet else snippet
        let snippet := if stop < fullText.length then snippet ++ ['.', '.', '.'] else snippet
        [{ bookId := page.bookId
           bookTitle :=
             orElseStr (bookMapGet books (jsReplaceFirst page.bookId "_en".data []))
               "Unknown".data
           volume := page.volume
           page := page.page
           snippet := snippet
           matchIndex := matchIndex }]

/-! ## Theorems -/

lemma normalizeArabic_eq_filterMap (s : Str) : normalizeArabic s = s.filterMap normChar := by
  induction s with
  | nil => rfl
  | cons c s ih =>
    by_cases h1 : ARABIC_DIACRITICS c
    · simpa [normalizeArabic, normChar, h1, List.filter_cons] using ih
    · by_cases h2 : isHamzaChar (taaFold (yaaFold (alefFold c)))
      · simpa [normalizeArabic, normChar, h1, h2, List.filter_cons] using ih
      · simpa [normalizeArabic, normChar, h1, h2, List.filter_cons] using ih

lemma alefFold_cases (c : Char) :
    alefFold c = 'ا' ∨ (alefFold c = c ∧ (c == 'أ' || c == 'إ' || c == 'آ' || c == 'ٱ') = false) := by
  unfold alefFold
  by_cases h : (c == 'أ' || c == 'إ' || c == 'آ' || c == 'ٱ') = true
  · left; simp [h]
  · right; simp only [Bool.not_eq_true] at h; simp [h]

lemma yaaFold_cases (c : Char) :
    yaaFold c = 'ي' ∨ (yaaFold c = c ∧ (c == 'ى' || c == 'ئ') = false) := by
  unfold yaaFold
  by_cases h : (c == 'ى' || c == 'ئ') = true
  · left; simp [h]
  · right; simp only [Bool.not_eq_true] at h; simp [h]

lemma taaFold_cases (c : Char) :
    taaFold c = 'ه' ∨ (taaFold c = c ∧ (c == 'ة') = false) := by
  unfold taaFold
  by_cases h : (c == 'ة') = true
  · left; simp [h]
  · right; simp only [Bool.not_eq_true] at h; simp [h]

/-- A character produced by `normChar` is left unchanged by a second pass. -/
lemma normChar_some_fix {c d : Char} (h : normChar c = some d) : normChar d = some d := by
  unfold normChar at h
  by_cases h1 : ARABIC_DIACRITICS c
  · simp [h1] at h
  · simp only [h1, if_false, Bool.false_eq_true] at h
    by_cases h2 : isHamzaChar (taaFold (yaaFold (alefFold c)))
    · simp [h2] at h
    · simp only [h2, if_false, Bool.false_eq_true, Option.some.injEq] at h
      subst h
      rcases taaFold_cases (yaaFold (alefFold c)) with ht | ⟨ht, ht'⟩
      · rw [ht] at h2 ⊢; revert h2; decide
      · rw [ht] at h2 ⊢
        rcases yaaFold_cases (alefFold c) with hy | ⟨hy, hy'⟩
        · rw [hy] at h2 ht' ⊢; revert h2; decide
        · rw [hy] at h2 ht' ⊢
          rcases alefFold_cases c with ha | ⟨ha, ha'⟩
          · rw [ha] at h2 ht' hy' ⊢; revert h2; decide
          · rw [ha] at h2 ht' hy' ⊢
            unfold normChar alefFold yaaFold taaFold
            simp [h1, ha', hy', ht', h2]

/-- C6: `normalizeArabic` (diacritic stripping followed by Alef/Yaa/Taa-Marbuta/
Hamza folding) is idempotent: `normalizeArabic (normalizeArabic s) = normalizeArabic s`
for every string `s`. -/
theorem normalizeArabic_idempotent (s : Str) :
    normalizeArabic (normalizeArabic s) = normalizeArabic s := by
  rw [normalizeArabic_eq_filterMap, normalizeArabic_eq_filterMap, List.filterMap_filterMap]
  congr 1
  funext c
  cases h : normChar c with
  | none => rfl
  | some d => simpa using normChar_some_fix h

set_option maxRecDepth 100000 in
/-- C7: `romanToArabic` applies its substitution table longest key first, so
`romanToArabic "ahlulbayt"` is the whole-phrase image `"اهل البيت"` and differs
from the character-by-character concatenation of the single-letter images of
`a, h, l, u, l, b, a, y, t`. -/
theorem romanToArabic_longest_match_priority :
    romanToArabic "ahlulbayt".data = "اهل البيت".data ∧
    romanToArabic "ahlulbayt".data ≠
      (['a', 'h', 'l', 'u', 'l', 'b', 'a', 'y', 't'].map fun c => tableLookup [c]).flatten := by
  constructor
  · decide
  · decide

/-! ### Search engine lemmas -/

lemma occursAt_iff {s pat : Str} {i : Nat} : occursAt s pat i = true ↔ pat <+: s.drop i := by
  simp [occursAt, List.isPrefixOf_iff_prefix]

lemma infix_exists_occursAt {s pat : Str} (h : pat <:+: s) :
    ∃ i ≤ s.length, occursAt s pat i = true := by
  obtain ⟨t, u, rfl⟩ := h
  refine ⟨t.length, by simp, ?_⟩
  rw [occursAt_iff, List.append_assoc, List.drop_left]
  exact ⟨u, rfl⟩

lemma indexOfFrom_isSome_of_occurs {s pat : Str} (h : pat <:+: s) :
    ∃ i, indexOfFrom s pat 0 = some i := by
  obtain ⟨i, hi, ho⟩ := infix_exists_occursAt h
  have hs : (indexOfFrom s pat 0).isSome := by
    simp only [indexOfFrom]
    rw [List.find?_isSome]
    exact ⟨i, List.mem_range.mpr (by omega), by simp [ho]⟩
  exact Option.isSome_iff_exists.mp hs

lemma indexOfFrom_none_of_not_occurs {s pat : Str} (h : ¬ pat <:+: s) (st : Nat) :
    indexOfFrom s pat st = none := by
  simp only [indexOfFrom]
  rw [List.find?_eq_none]
  intro i _ hC
  refine h ?_
  simp only [Bool.and_eq_true, decide_eq_true_eq] at hC
  exact (occursAt_iff.mp hC.2).isInfix.trans (List.drop_suffix i s).isInfix

lemma indexOfFrom_some_occursAt {s pat : Str} {st i : Nat}
    (h : indexOfFrom s pat st = some i) : occursAt s pat i = true := by
  simp only [indexOfFrom] at h
  have := List.find?_some h
  simp only [Bool.and_eq_true] at this
  exact this.2

lemma searchPageLoop_length (tm term : Str) (mk : Nat → Nat → SearchResult) :
    ∀ fuel idx cnt, (searchPageLoop tm term mk fuel idx cnt).length ≤ fuel := by
  intro fuel
  induction fuel with
  | zero => intro idx cnt; simp [searchPageLoop]
  | succ n ih =>
    intro idx cnt
    simp only [searchPageLoop]
    cases h : indexOfFrom tm term idx with
    | none => simp
    | some i =>
      by_cases h3 : 3 ≤ cnt + 1
      · simp only [h3, if_true, List.length_cons, List.length_nil]; omega
      · simp only [h3, if_false, List.length_cons]
        have := ih (i + term.length) (cnt + 1)
        omega

lemma mem_searchPageLoop {tm term : Str} {mk : Nat → Nat → SearchResult} :
    ∀ {fuel idx cnt : Nat} {r : SearchResult}, r ∈ searchPageLoop tm term mk fuel idx cnt →
      ∃ i c, occursAt tm term i = true ∧ r = mk i c := by
  intro fuel
  induction fuel with
  | zero => intro idx cnt r h; simp [searchPageLoop] at h
  | succ n ih =>
    intro idx cnt r h
    simp only [searchPageLoop] at h
    cases he : indexOfFrom tm term idx with
    | none => rw [he] at h; simp at h
    | some i =>
      rw [he] at h
      by_cases h3 : 3 ≤ cnt + 1
      · simp only [h3, if_true, List.mem_singleton] at h
        exact ⟨i, cnt, indexOfFrom_some_occursAt he, h⟩
      · simp only [h3, if_false, List.mem_cons] at h
        rcases h with h | h
        · exact ⟨i, cnt, indexOfFrom_some_occursAt he, h⟩
        · exact ih h

lemma searchPageLoop_head {tm term : Str} {mk : Nat → Nat → SearchResult}
    {fuel idx cnt i : Nat} (h : indexOfFrom tm term idx = some i) :
    mk i cnt ∈ searchPageLoop tm term mk (fuel + 1) idx cnt := by
  simp only [searchPageLoop]
  rw [h]
  by_cases h3 : 3 ≤ cnt + 1 <;> simp [h3]

lemma pageResults_eq (books : List Book) (mode : SearchMode) (term : Str) (page : Page) :
    pageResults books mode term page =
      searchPageLoop (matchText mode page) term
        (fun i cnt =>
          { bookId := page.bookId
            bookTitle := orElseStr ((books.find? fun b => b.id = page.bookId).map Book.title) page.bookId
            volume := page.volume
            page := page.page
            snippet := mkSnippet (flatText page.text) i term.length
            matchIndex := cnt })
        3 0 0 := rfl

lemma pageResults_key {books : List Book} {mode : SearchMode} {term : Str} {page : Page}
    {r : SearchResult} (h : r ∈ pageResults books mode term page) :
    resultKey r = pageKey page := by
  rw [pageResults_eq] at h
  obtain ⟨i, c, _, rfl⟩ := mem_searchPageLoop h
  rfl

lemma pageResults_snippet {books : List Book} {mode : SearchMode} {term : Str} {page : Page}
    {r : SearchResult} (h : r ∈ pageResults books mode term page) :
    ∃ i, occursAt (matchText mode page) term i = true ∧
      r.snippet = claimSnippet (flatText page.text) i term.length := by
  rw [pageResults_eq] at h
  obtain ⟨i, c, ho, rfl⟩ := mem_searchPageLoop h
  exact ⟨i, ho, rfl⟩

lemma pageResults_ne_nil_of_occurs {books : List Book} {mode : SearchMode} {term : Str}
    {page : Page} (h : term <:+: matchText mode page) :
    ∃ r ∈ pageResults books mode term page, resultKey r = pageKey page := by
  obtain ⟨i, hi⟩ := indexOfFrom_isSome_of_occurs h
  rw [pageResults_eq]
  exact ⟨_, @searchPageLoop_head _ _ _ 2 0 0 _ hi, rfl⟩

lemma pageResults_eq_nil_of_not_occurs {books : List Book} {mode : SearchMode} {term : Str}
    {page : Page} (h : ¬ term <:+: matchText mode page) :
    pageResults books mode term page = [] := by
  have hn : indexOfFrom (matchText mode page) term 0 = none :=
    indexOfFrom_none_of_not_occurs h 0
  rw [pageResults_eq]
  show searchPageLoop _ _ _ (2 + 1) 0 0 = []
  simp only [searchPageLoop]
  rw [hn]

lemma performSearch_eq {books : List Book} {pages : List Page} {im : InputMode}
    {sm : SearchMode} {sf : SectChoice} {sel : List Str} {q : Str} (h : jsTrim q ≠ []) :
    performSearch books pages im sm sf sel q =
      some ((pages.filter (pageFilter sf sel)).flatMap
        (pageResults books sm (searchTermOf im sm q))) := by
  simp [performSearch, h]

/-! ### C1: the search containment contract -/

/-- C1 (amended: the query must be nonblank, since `performSearch` returns
early on a query that trims to the empty string): for a candidate page whose
normalized flat text contains the normalized (trimmed) query, a root-mode
search produces at least one result for that page; and when the trimmed query
does not occur literally in the flat text of any page carrying that page's
key — for instance when it occurs only after normalization because the stored
text differs by diacritics — an exact-mode search produces no result for that
page. -/
theorem performSearch_containment
    (booksStore : List Book) (pagesStore : List Page)
    (sf : SectChoice) (sel : List Str) (query : Str) (page : Page)
    (hmem : page ∈ pagesStore)
    (hcand : pageFilter sf sel page = true)
    (hq : jsTrim query ≠ []) :
    (normalizeArabic (jsTrim query) <:+: normalizeArabic (flatText page.text) →
      ∃ rs, performSearch booksStore pagesStore .arabic .root sf sel query = some rs ∧
        ∃ r ∈ rs, resultKey r = pageKey page) ∧
    ((∀ p' ∈ pagesStore, pageKey p' = pageKey page → ¬ jsTrim query <:+: flatText p'.text) →
      ∀ rs, performSearch booksStore pagesStore .arabic .exact sf sel query = some rs →
        ∀ r ∈ rs, resultKey r ≠ pageKey page) := by
  constructor
  · intro hc
    refine ⟨_, performSearch_eq hq, ?_⟩
    have hinf : searchTermOf .arabic .root query <:+: matchText .root page := hc
    obtain ⟨r, hr, hk⟩ := @pageResults_ne_nil_of_occurs booksStore _ _ _ hinf
    exact ⟨r, List.mem_flatMap.mpr ⟨page, List.mem_filter.mpr ⟨hmem, hcand⟩, hr⟩, hk⟩
  · intro hno rs hrs r hr hk
    rw [performSearch_eq hq] at hrs
    have hrs' := Option.some.inj hrs
    rw [← hrs'] at hr
    obtain ⟨p', hp', hrp'⟩ := List.mem_flatMap.mp hr
    have hkey := pageResults_key hrp'
    have hpk : pageKey p' = pageKey page := by rw [← hkey, hk]
    have hni : ¬ searchTermOf .arabic .exact query <:+: matchText .exact p' :=
      hno p' (List.mem_filter.mp hp').1 hpk
    rw [pageResults_eq_nil_of_not_occurs hni] at hrp'
    exact absurd hrp' (List.not_mem_nil r)

/-- C1 counterexample to the claim as stated (quantified over every query):
with the blank query `" "`, the normalized flat text of a candidate page
contains the normalized query, yet a root-mode search produces no result
list at all, because `performSearch` returns early on a blank query. -/
theorem performSearch_blank_query_counterexample :
    pageB ∈ [pageB] ∧ pageFilter .all [] pageB = true ∧
    normalizeArabic " ".data <:+: normalizeArabic (flatText pageB.text) ∧
    performSearch [] [pageB] .arabic .root .all [] " ".data = none := by
  refine ⟨by decide, by decide, ?_, by decide⟩
  decide

/-- Witness for `performSearch_containment` at a concrete corpus: a page whose
text carries a kasra, searched for the same word without diacritics. -/
theorem performSearch_containment_witness :
    (pageC1 ∈ [pageC1] ∧ pageFilter .all [] pageC1 = true ∧ jsTrim "علم".data ≠ [] ∧
      normalizeArabic (jsTrim "علم".data) <:+: normalizeArabic (flatText pageC1.text)) ∧
    (∃ rs, performSearch [] [pageC1] .arabic .root .all [] "علم".data = some rs ∧
      ∃ r ∈ rs, resultKey r = pageKey pageC1) :=
  ⟨⟨by decide, by decide, by decide, by decide⟩,
    (performSearch_containment [] [pageC1] .all [] ("علم".data) pageC1
      (by decide) (by decide) (by decide)).1 (by decide)⟩

/-! ### C2: snippet construction -/

/-- C2 (amended): every result's snippet is the original flat page text
windowed ±50 characters around the match position **as computed in the text
used for matching**, with ellipsis markers exactly when truncated.  In exact
mode the matching text is the original text itself, so the window sits around
the occurrence; in root mode the position refers to the normalized text and
can be offset from the occurrence in the original when normalization removed
characters. -/
theorem performSearch_snippet_window
    (booksStore : List Book) (pagesStore : List Page) (im : InputMode) (sm : SearchMode)
    (sf : SectChoice) (sel : List Str) (q : Str) (rs : List SearchResult)
    (h : performSearch booksStore pagesStore im sm sf sel q = some rs) :
    ∀ r ∈ rs, ∃ p, p ∈ pagesStore ∧ pageFilter sf sel p = true ∧
      ∃ i, occursAt (matchText sm p) (searchTermOf im sm q) i = true ∧
        r.snippet = claimSnippet (flatText p.text) i (searchTermOf im sm q).length ∧
        (sm = .exact → matchText sm p = flatText p.text) := by
  intro r hr
  by_cases hq : jsTrim q = []
  · simp [performSearch, hq] at h
  · rw [performSearch_eq hq] at h
    rw [← Option.some.inj h] at hr
    obtain ⟨p, hp, hrp⟩ := List.mem_flatMap.mp hr
    obtain ⟨i, hi, hsnip⟩ := pageResults_snippet hrp
    refine ⟨p, (List.mem_filter.mp hp).1, (List.mem_filter.mp hp).2, i, hi, hsnip, ?_⟩
    intro he
    subst he
    rfl

set_option maxRecDepth 200000 in
/-- C2 counterexample to the claim as stated: on a page whose text begins with
60 diacritics, the root-mode snippet for query "ب" is **not** the original
text windowed ±50 around any occurrence of the query in the original text —
the code windows around the match position in the normalized text instead. -/
theorem performSearch_snippet_counterexample :
    performSearch [] [pageC2] .arabic .root .all [] "ب".data = some rsC2 ∧
    (∀ r ∈ rsC2, ∀ j ≤ (flatText pageC2.text).length,
      occursAt (flatText pageC2.text) (jsTrim "ب".data) j = true →
        r.snippet ≠ claimSnippet (flatText pageC2.text) j (jsTrim "ب".data).length) := by
  constructor
  · decide
  · decide

/-- Witness for `performSearch_snippet_window` at a concrete exact-mode
corpus. -/
theorem performSearch_snippet_window_witness :
    performSearch [] [pageW] .arabic .exact .all [] "ب".data = some rsW ∧
    (∀ r ∈ rsW, ∃ p, p ∈ [pageW] ∧ pageFilter .all [] p = true ∧
      ∃ i, occursAt (matchText .exact p) (searchTermOf .arabic .exact "ب".data) i = true ∧
        r.snippet = claimSnippet (flatText p.text) i (searchTermOf .arabic .exact "ب".data).length ∧
        (SearchMode.exact = .exact → matchText .exact p = flatText p.text)) :=
  ⟨by decide,
    performSearch_snippet_window [] [pageW] .arabic .exact .all [] ("ب".data) rsW (by decide)⟩

/-! ### C5: the per-page result cap -/

lemma flatMap_key_cap (books : List Book) (mode : SearchMode) (term : Str)
    (k : Str × Nat × Nat) :
    ∀ l : List Page, (l.countP fun p => decide (pageKey p = k)) ≤ 1 →
      ((l.flatMap (pageResults books mode term)).countP
        fun r => decide (resultKey r = k)) ≤ 3 := by
  intro l
  induction l with
  | nil => intro _; simp
  | cons p l ih =>
    intro hc
    rw [List.flatMap_cons, List.countP_append]
    rw [List.countP_cons] at hc
    by_cases hk : pageKey p = k
    · have hc' : (l.countP fun p => decide (pageKey p = k)) + 1 ≤ 1 := by
        simpa [hk] using hc
      have hl0 : (l.countP fun p => decide (pageKey p = k)) = 0 := by omega
      have htail :
          ((l.flatMap (pageResults books mode term)).countP
            fun r => decide (resultKey r = k)) = 0 := by
        rw [List.countP_eq_zero]
        intro r hr
        obtain ⟨p', hp', hrp'⟩ := List.mem_flatMap.mp hr
        have hkey := pageResults_key hrp'
        have hne := List.countP_eq_zero.mp hl0 p' hp'
        simp only [decide_eq_true_eq] at hne ⊢
        rw [hkey]
        exact hne
      have hhead :
          ((pageResults books mode term p).countP fun r => decide (resultKey r = k)) ≤ 3 := by
        calc ((pageResults books mode term p).countP fun r => decide (resultKey r = k))
            ≤ (pageResults books mode term p).length := List.countP_le_length _
          _ ≤ 3 := by rw [pageResults_eq]; exact searchPageLoop_length _ _ _ 3 0 0
      omega
    · have hhead :
          ((pageResults books mode term p).countP fun r => decide (resultKey r = k)) = 0 := by
        rw [List.countP_eq_zero]
        intro r hr
        have hkey := pageResults_key hr
        simp only [decide_eq_true_eq]
        rw [hkey]
        exact hk
      have hc' : (l.countP fun p => decide (pageKey p = k)) ≤ 1 := by
        simpa [hk] using hc
      have := ih hc'
      omega

/-- C5: a single `performSearch` call produces at most 3 results for any page
key occurring at most once in the page store, no matter how many occurrences
of the query that page's text contains (the loop resumes after each match and
breaks at the third). -/
theorem performSearch_page_cap
    (booksStore : List Book) (pagesStore : List Page) (im : InputMode) (sm : SearchMode)
    (sf : SectChoice) (sel : List Str) (q : Str) (k : Str × Nat × Nat)
    (hk : (pagesStore.countP fun p => decide (pageKey p = k)) ≤ 1)
    (rs : List SearchResult)
    (h : performSearch booksStore pagesStore im sm sf sel q = some rs) :
    (rs.countP fun r => decide (resultKey r = k)) ≤ 3 := by
  by_cases hq : jsTrim q = []
  · simp [performSearch, hq] at h
  · rw [performSearch_eq hq] at h
    rw [← Option.some.inj h]
    refine flatMap_key_cap _ _ _ _ _ ?_
    calc ((pagesStore.filter (pageFilter sf sel)).countP fun p => decide (pageKey p = k))
        ≤ (pagesStore.countP fun p => decide (pageKey p = k)) :=
          (List.filter_sublist _).countP_le _
      _ ≤ 1 := hk

/-- Witness for `performSearch_page_cap`: a page with ten occurrences of the
query "اب" contributes exactly three results. -/
theorem performSearch_page_cap_witness :
    (([pageC5].countP fun p => decide (pageKey p = ("b1".data, 1, 1))) ≤ 1) ∧
    ((rsC5.countP fun r => decide (resultKey r = ("b1".data, 1, 1))) ≤ 3) :=
  ⟨by decide,
    performSearch_page_cap [] [pageC5] .arabic .exact .all [] (String.data "اب")
      ("b1".data, 1, 1) (by decide) rsC5 (by decide)⟩

/-! ### C3: volume replacement on import -/

lemma mem_readVolumePages {z : Zip} {id : Str} {vi : VolManifest} {p : Page}
    (h : p ∈ readVolumePages z id vi) : p.bookId = id ∧ p.volume = vi.volume := by
  simp only [readVolumePages, List.mem_filterMap] at h
  obtain ⟨n, _, hn⟩ := h
  cases hz : zipFile z vi.volume n with
  | none => rw [hz] at hn; simp at hn
  | some t =>
    rw [hz] at hn
    have hn' : Page.mk id vi.volume n t = p := by simpa using hn
    rw [← hn']
    exact ⟨rfl, rfl⟩

lemma readVolumePages_filter_self (z : Zip) (id : Str) (vi : VolManifest) :
    (readVolumePages z id vi).filter (pageVolKey id vi.volume) = readVolumePages z id vi := by
  apply List.filter_eq_self.mpr
  intro p hp
  obtain ⟨h1, h2⟩ := mem_readVolumePages hp
  simp [pageVolKey, h1, h2]

lemma pairwise_filterMap_page (z : Zip) (id : Str) (vol : Nat) :
    ∀ l : List Nat, l.Pairwise (· < ·) →
      (l.filterMap fun p => (zipFile z vol p).map fun text => Page.mk id vol p text).Pairwise
        fun p q => p.page < q.page := by
  intro l hl
  induction l with
  | nil => simp
  | cons n l ih =>
    rw [List.pairwise_cons] at hl
    simp only [List.filterMap_cons]
    cases hz : zipFile z vol n with
    | none => exact ih hl.2
    | some t =>
      refine List.Pairwise.cons ?_ (ih hl.2)
      intro q hq
      simp only [List.mem_filterMap] at hq
      obtain ⟨m, hm, hq⟩ := hq
      cases hz' : zipFile z vol m with
      | none => rw [hz'] at hq; simp at hq
      | some t' =>
        rw [hz'] at hq
        have hq' : Page.mk id vol m t' = q := by simpa using hq
        rw [← hq']
        exact hl.1 m hm

lemma readVolumePages_pairwise (z : Zip) (id : Str) (vi : VolManifest) :
    (readVolumePages z id vi).Pairwise fun p q => pageKeyEq p q = false := by
  have h := pairwise_filterMap_page z id vi.volume (List.range' 1 vi.totalPages)
    (List.pairwise_lt_range' ..)
  refine h.imp fun hlt => ?_
  simp only [pageKeyEq, Bool.and_eq_false_iff]
  right
  simp only [beq_eq_false_iff_ne, ne_eq]
  omega

lemma dbPutPage_append {p : Page} {l : List Page}
    (h : ∀ q ∈ l, pageKeyEq q p = false) : dbPutPage p l = l ++ [p] := by
  induction l with
  | nil => rfl
  | cons q l ih =>
    simp only [dbPutPage]
    rw [h q (List.mem_cons_self ..)]
    simp only [Bool.false_eq_true, if_false, List.cons_append, List.cons.injEq, true_and]
    exact ih fun q' hq' => h q' (List.mem_cons_of_mem _ hq')

lemma dbSavePages_append :
    ∀ (ps l : List Page), (∀ p ∈ ps, ∀ q ∈ l, pageKeyEq q p = false) →
      ps.Pairwise (fun a b => pageKeyEq a b = false) → dbSavePages ps l = l ++ ps := by
  intro ps
  induction ps with
  | nil => intro l _ _; simp [dbSavePages]
  | cons p ps ih =>
    intro l h hp
    rw [List.pairwise_cons] at hp
    show dbSavePages ps (dbPutPage p l) = l ++ p :: ps
    rw [dbPutPage_append fun q hq => h p (List.mem_cons_self ..) q hq]
    have hrest : ∀ p' ∈ ps, ∀ q ∈ l ++ [p], pageKeyEq q p' = false := by
      intro p' hp' q hq
      rcases List.mem_append.mp hq with hq | hq
      · exact h p' (List.mem_cons_of_mem _ hp') q hq
      · simp only [List.mem_singleton] at hq
        subst hq
        exact hp.1 p' hp'
    rw [ih (l ++ [p]) hrest hp.2, List.append_assoc]
    rfl

lemma pageKeyEq_same_vol {p q : Page} (h : pageKeyEq q p = true) :
    ∀ id vol, pageVolKey id vol q = pageVolKey id vol p := by
  intro id vol
  simp only [pageKeyEq, Bool.and_eq_true, beq_iff_eq] at h
  simp [pageVolKey, h.1.1, h.1.2]

lemma filter_dbPutPage_of_neg {id : Str} {vol : Nat} {p : Page} {l : List Page}
    (hp : pageVolKey id vol p = false) :
    (dbPutPage p l).filter (pageVolKey id vol) = l.filter (pageVolKey id vol) := by
  induction l with
  | nil => simp [dbPutPage, hp]
  | cons q l ih =>
    simp only [dbPutPage]
    by_cases hk : pageKeyEq q p
    · have hq : pageVolKey id vol q = false := by rw [pageKeyEq_same_vol hk, hp]
      simp [hk, List.filter_cons, hp, hq]
    · simp only [hk, Bool.false_eq_true, if_false]
      rw [List.filter_cons, List.filter_cons, ih]

lemma filter_dbSavePages_of_neg {id : Str} {vol : Nat} :
    ∀ {ps l : List Page}, (∀ p ∈ ps, pageVolKey id vol p = false) →
      (dbSavePages ps l).filter (pageVolKey id vol) = l.filter (pageVolKey id vol) := by
  intro ps
  induction ps with
  | nil => intro l _; rfl
  | cons p ps ih =>
    intro l h
    show (dbSavePages ps (dbPutPage p l)).filter _ = _
    rw [ih fun p' hp' => h p' (List.mem_cons_of_mem _ hp'),
      filter_dbPutPage_of_neg (h p (List.mem_cons_self ..))]

lemma filter_of_filter_not {α} (p q : α → Bool) (l : List α)
    (h : ∀ a, p a = true → q a = false) :
    (l.filter fun a => !q a).filter p = l.filter p := by
  rw [List.filter_filter]
  apply List.filter_congr
  intro a _
  cases hp : p a
  · simp
  · simp [h a hp]

lemma filter_not_self {α} (p : α → Bool) (l : List α) :
    (l.filter fun a => !p a).filter p = [] := by
  rw [List.filter_filter]
  apply List.filter_eq_nil_iff.mpr
  intro a _
  simp

/-- Establishment: right after `importVolume` runs for volume `vi`, both the
mirror and the store hold exactly the freshly read pages for that volume. -/
lemma importVolume_establishes (id : Str) (z : Zip) (now : Nat) (st : AppState)
    (vi : VolManifest) :
    ((importVolume id z now st vi).pagesStore.filter (pageVolKey id vi.volume)
        = readVolumePages z id vi) ∧
    ((importVolume id z now st vi).db.pages.filter (pageVolKey id vi.volume)
        = readVolumePages z id vi) := by
  constructor
  · simp only [importVolume, List.filter_append]
    rw [filter_not_self, readVolumePages_filter_self]
    rfl
  · simp only [importVolume]
    have hdel : ∀ q ∈ dbDeletePagesFor id vi.volume st.db.pages,
        pageVolKey id vi.volume q = false := by
      intro q hq
      simp only [dbDeletePagesFor, List.mem_filter, Bool.not_eq_eq_eq_not, Bool.not_true] at hq
      simpa using hq.2
    rw [dbSavePages_append _ _ (fun p _ q hq => ?_) (readVolumePages_pairwise z id vi)]
    · rw [List.filter_append, readVolumePages_filter_self,
        List.filter_eq_nil_iff.mpr fun q hq => by simp [hdel q hq]]
      rfl
    · by_cases hk : pageKeyEq q p
      · by_contra
        have hq := hdel q hq
        have hp := mem_readVolumePages ‹p ∈ readVolumePages z id vi›
        rw [pageKeyEq_same_vol hk] at hq
        simp [pageVolKey, hp.1, hp.2] at hq
      · simpa using hk

/-- Preservation: importing a different volume of the same book does not
change which pages carry the key `(id, vol)`, in mirror or store. -/
lemma importVolume_preserves (id : Str) (z : Zip) (now : Nat) (st : AppState)
    (w : VolManifest) (vol : Nat) (hw : w.volume ≠ vol) :
    ((importVolume id z now st w).pagesStore.filter (pageVolKey id vol)
        = st.pagesStore.filter (pageVolKey id vol)) ∧
    ((importVolume id z now st w).db.pages.filter (pageVolKey id vol)
        = st.db.pages.filter (pageVolKey id vol)) := by
  have hbatch : ∀ p ∈ readVolumePages z id w, pageVolKey id vol p = false := by
    intro p hp
    obtain ⟨h1, h2⟩ := mem_readVolumePages hp
    simp only [pageVolKey, Bool.and_eq_false_iff]
    right
    simp [h2, hw]
  have hkey : ∀ p : Page, pageVolKey id vol p = true → pageVolKey id w.volume p = false := by
    intro p hp
    simp only [pageVolKey, Bool.and_eq_true, beq_iff_eq] at hp
    simp only [pageVolKey, Bool.and_eq_false_iff]
    right
    simp only [beq_eq_false_iff_ne, ne_eq, hp.2]
    exact fun h => hw h.symm
  have hnil : (readVolumePages z id w).filter (pageVolKey id vol) = [] :=
    List.filter_eq_nil_iff.mpr fun p hp => by simp [hbatch p hp]
  constructor
  · simp only [importVolume, List.filter_append]
    rw [hnil, filter_of_filter_not _ _ _ hkey, List.append_nil]
  · simp only [importVolume]
    rw [filter_dbSavePages_of_neg hbatch]
    exact filter_of_filter_not _ _ _ hkey

/-- The final book upsert leaves the page collections untouched. -/
lemma importBook_pages (m : Manifest) (now : Nat) (st : AppState) :
    (importBook m now st).pagesStore = st.pagesStore ∧
    (importBook m now st).db.pages = st.db.pages := by
  unfold importBook
  cases st.booksStore.find? fun b => b.id == m.id <;> exact ⟨rfl, rfl⟩

lemma foldl_importVolume_preserves (id : Str) (z : Zip) (now : Nat) (vol : Nat) :
    ∀ (l : List VolManifest) (st : AppState), (∀ w ∈ l, w.volume ≠ vol) →
      ((l.foldl (importVolume id z now) st).pagesStore.filter (pageVolKey id vol)
          = st.pagesStore.filter (pageVolKey id vol)) ∧
      ((l.foldl (importVolume id z now) st).db.pages.filter (pageVolKey id vol)
          = st.db.pages.filter (pageVolKey id vol)) := by
  intro l
  induction l with
  | nil => intro st _; exact ⟨rfl, rfl⟩
  | cons w l ih =>
    intro st h
    rw [List.foldl_cons]
    obtain ⟨ih1, ih2⟩ := ih (importVolume id z now st w)
      fun w' hw' => h w' (List.mem_cons_of_mem _ hw')
    obtain ⟨hp1, hp2⟩ := importVolume_preserves id z now st w vol
      (h w (List.mem_cons_self ..))
    exact ⟨ih1.trans hp1, ih2.trans hp2⟩

/-- C3: re-importing a manifest that declares volume `vi` of book `m.id`
leaves the mirror and the store holding exactly the freshly read page records
for that volume — zero stale pages survive from any prior import. -/
theorem import_replaces_volume (m : Manifest) (z : Zip) (now : Nat) (st : AppState)
    (vi : VolManifest) (hvi : vi ∈ m.volumes)
    (hnodup : (m.volumes.map VolManifest.volume).Nodup) :
    ((handleFileImport m z now st).pagesStore.filter (pageVolKey m.id vi.volume)
        = readVolumePages z m.id vi) ∧
    ((handleFileImport m z now st).db.pages.filter (pageVolKey m.id vi.volume)
        = readVolumePages z m.id vi) := by
  obtain ⟨s, t, hst⟩ := List.append_of_mem hvi
  have htail : ∀ w ∈ t, w.volume ≠ vi.volume := by
    rw [hst, List.map_append, List.map_cons] at hnodup
    have h2 := hnodup.of_append_right
    rw [List.nodup_cons] at h2
    intro w hw heq
    exact h2.1 (heq ▸ List.mem_map_of_mem VolManifest.volume hw)
  unfold handleFileImport
  obtain ⟨hb1, hb2⟩ := importBook_pages m now (m.volumes.foldl (importVolume m.id z now) st)
  rw [hb1, hb2, hst, List.foldl_append, List.foldl_cons]
  obtain ⟨hf1, hf2⟩ := foldl_importVolume_preserves m.id z now vi.volume t
    (importVolume m.id z now (s.foldl (importVolume m.id z now) st) vi) htail
  obtain ⟨he1, he2⟩ := importVolume_establishes m.id z now
    (s.foldl (importVolume m.id z now) st) vi
  exact ⟨hf1.trans he1, hf2.trans he2⟩

/-- Witness for `import_replaces_volume`: re-importing volume 1 of `b1`
shrunk from 2 pages to 1 page leaves exactly 1 page record for `(b1, 1)`
in both mirror and store. -/
theorem import_replaces_volume_witness :
    ((⟨1, 1⟩ : VolManifest) ∈ mShrink.volumes ∧
      (mShrink.volumes.map VolManifest.volume).Nodup) ∧
    ((handleFileImport mShrink zShrink 5 stShrink).pagesStore.filter
        (pageVolKey mShrink.id 1) = readVolumePages zShrink mShrink.id ⟨1, 1⟩ ∧
      (handleFileImport mShrink zShrink 5 stShrink).db.pages.filter
        (pageVolKey mShrink.id 1) = readVolumePages zShrink mShrink.id ⟨1, 1⟩) ∧
    (readVolumePages zShrink mShrink.id ⟨1, 1⟩).length = 1 :=
  ⟨⟨by decide, by decide⟩,
    import_replaces_volume mShrink zShrink 5 stShrink ⟨1, 1⟩ (by decide) (by decide),
    by decide⟩

/-! ### C4: cascade delete -/

/-- C4: after `handleDeleteBook`, neither the mirror nor the store contains
any Book, Volume or Page record whose id (for books) or `bookId` (for volumes
and pages) is the deleted book's id or the paired `_en` translation id. -/
theorem deleteBook_cascades (book : Book) (st : AppState) :
    (∀ b ∈ (handleDeleteBook book st).booksStore,
      b.id ≠ book.id ∧ b.id ≠ book.id ++ "_en".data) ∧
    (∀ v ∈ (handleDeleteBook book st).volumesStore,
      v.bookId ≠ book.id ∧ v.bookId ≠ book.id ++ "_en".data) ∧
    (∀ p ∈ (handleDeleteBook book st).pagesStore,
      p.bookId ≠ book.id ∧ p.bookId ≠ book.id ++ "_en".data) ∧
    (∀ b ∈ (handleDeleteBook book st).db.books,
      b.id ≠ book.id ∧ b.id ≠ book.id ++ "_en".data) ∧
    (∀ v ∈ (handleDeleteBook book st).db.volumes,
      v.bookId ≠ book.id ∧ v.bookId ≠ book.id ++ "_en".data) ∧
    (∀ p ∈ (handleDeleteBook book st).db.pages,
      p.bookId ≠ book.id ∧ p.bookId ≠ book.id ++ "_en".data) := by
  refine ⟨?_, ?_, ?_, ?_, ?_, ?_⟩ <;> intro x hx <;>
    simp only [handleDeleteBook, dbDeleteBook, List.mem_filter, Bool.and_eq_true,
      Bool.not_eq_eq_eq_not, Bool.not_true, beq_eq_false_iff_ne, ne_eq] at hx <;>
    tauto

/-! ### C8: startup load error handling -/

/-- C8 counterexample: with the volumes read failing, `loadFromDB` still
resolves (the `catch` swallows the error and only logs it) and leaves the
Mirror partially seeded — the books mirror holds the freshly read records
while the volumes mirror still holds the stale record. -/
theorem loadFromDB_swallows_error_counterexample :
    (loadFromDB prevC8 (.ok [bookFresh]) (.error "e".data) (.ok [])).booksStore
        = [bookFresh] ∧
    (loadFromDB prevC8 (.ok [bookFresh]) (.error "e".data) (.ok [])).volumesStore
        = [volStale] ∧
    [bookFresh] ≠ prevC8.booksStore := by
  refine ⟨rfl, rfl, by decide⟩

/-- C8 (amended): `loadFromDB` never propagates a storage failure — the
`try/catch` swallows it and the call resolves.  The mirrors assigned before
the failing read keep the fresh values and the later mirrors keep their
previous contents, so a mid-sequence failure leaves the Mirror seeded with
partial data; only a fully successful triple of reads seeds all three. -/
theorem loadFromDB_error_handling (prev : AppState) (rb : Except Str (List Book))
    (rv : Except Str (List VolumeInfo)) (rp : Except Str (List Page)) :
    (∀ e, rb = .error e → loadFromDB prev rb rv rp = prev) ∧
    (∀ books e, rb = .ok books → rv = .error e →
      loadFromDB prev rb rv rp = { prev with booksStore := books }) ∧
    (∀ books volumes e, rb = .ok books → rv = .ok volumes → rp = .error e →
      loadFromDB prev rb rv rp =
        { prev with booksStore := books, volumesStore := volumes }) ∧
    (∀ books volumes pages, rb = .ok books → rv = .ok volumes → rp = .ok pages →
      loadFromDB prev rb rv rp =
        { prev with booksStore := books, volumesStore := volumes, pagesStore := pages }) := by
  refine ⟨?_, ?_, ?_, ?_⟩
  · intro e he; subst he; rfl
  · intro books e hb hv; subst hb; subst hv; rfl
  · intro books volumes e hb hv hp; subst hb; subst hv; subst hp; rfl
  · intro books volumes pages hb hv hp; subst hb; subst hv; subst hp; rfl

/-- Witness for `loadFromDB_error_handling` at a concrete failing read. -/
theorem loadFromDB_error_handling_witness :
    loadFromDB prevC8 (.ok [bookFresh]) (.error "e".data) (.ok []) =
      { prevC8 with booksStore := [bookFresh] } :=
  (loadFromDB_error_handling prevC8 (.ok [bookFresh]) (.error "e".data) (.ok [])).2.1
    [bookFresh] "e".data rfl rfl

/-! ### C9: cache eviction and time-to-live -/

lemma mapSet_append {R : Type} {key : Str} {v : CachedSearch R} :
    ∀ {m : List (Str × CachedSearch R)}, (∀ e ∈ m, e.1 ≠ key) →
      mapSet key v m = m ++ [(key, v)] := by
  intro m
  induction m with
  | nil => intro _; rfl
  | cons e m ih =>
    intro h
    obtain ⟨k, w⟩ := e
    simp only [mapSet]
    have hk : (k == key) = false := by
      simpa using h (k, w) (List.mem_cons_self ..)
    rw [hk]
    simp only [Bool.false_eq_true, if_false, List.cons_append, List.cons.injEq, true_and]
    exact ih fun e he => h e (List.mem_cons_of_mem _ he)

lemma insertAll_cons {R : Type} (it : Str × List R × Nat)
    (items : List (Str × List R × Nat)) (m : List (Str × CachedSearch R)) :
    insertAll (it :: items) m = insertAll items (cacheSearchResults it.2.2 it.1 it.2.1 m) :=
  rfl

lemma insertAll_split {R : Type} (a b : List (Str × List R × Nat))
    (m : List (Str × CachedSearch R)) :
    insertAll (a ++ b) m = insertAll b (insertAll a m) :=
  List.foldl_append ..

lemma insertAll_under_capacity {R : Type} :
    ∀ (items : List (Str × List R × Nat)) (m : List (Str × CachedSearch R)),
      m.length + items.length ≤ CACHE_SIZE →
      (∀ it ∈ items, ∀ e ∈ m, e.1 ≠ it.1) →
      (items.map Prod.fst).Nodup →
      insertAll items m = m ++ items.map entryOf := by
  intro items
  induction items with
  | nil => intro m _ _ _; simp [insertAll]
  | cons it items ih =>
    intro m hlen habs hnd
    rw [List.map_cons, List.nodup_cons] at hnd
    rw [insertAll_cons]
    have hcap : ¬ CACHE_SIZE ≤ m.length := by
      simp only [List.length_cons] at hlen
      omega
    have hstep : cacheSearchResults it.2.2 it.1 it.2.1 m = m ++ [entryOf it] := by
      simp only [cacheSearchResults, hcap, if_false]
      exact mapSet_append fun e he => habs it (List.mem_cons_self ..) e he
    rw [hstep, ih (m ++ [entryOf it]) ?hlen ?habs hnd.2]
    · simp [entryOf]
    case hlen =>
      have h1 : (m ++ [entryOf it]).length = m.length + 1 := by simp
      have h2 : (it :: items).length = items.length + 1 := rfl
      rw [h2] at hlen
      rw [h1]
      omega
    case habs =>
      intro it' hit' e he
      rcases List.mem_append.mp he with he | he
      · exact habs it' (List.mem_cons_of_mem _ hit') e he
      · simp only [List.mem_singleton] at he
        subst he
        show (entryOf it).1 ≠ it'.1
        intro heq
        exact hnd.1 (heq ▸ List.mem_map_of_mem Prod.fst hit')

lemma mapGet_none_iff {R : Type} {key : Str} {l : List (Str × CachedSearch R)} :
    mapGet key l = none ↔ ∀ e ∈ l, e.1 ≠ key := by
  constructor
  · intro h e he heq
    cases hf : l.find? fun e => e.1 == key with
    | none =>
      have := List.find?_eq_none.mp hf e he
      simp [heq] at this
    | some e' => rw [mapGet, hf] at h; simp at h
  · intro h
    rw [mapGet, List.find?_eq_none.mpr ?_]
    · rfl
    · intro e he
      simpa using h e he

lemma mapGet_eq_some_mem {R : Type} {key : Str} {l : List (Str × CachedSearch R)}
    {c : CachedSearch R} (h : mapGet key l = some c) : (key, c) ∈ l := by
  cases hf : l.find? fun e => e.1 == key with
  | none => simp [mapGet, hf] at h
  | some e =>
    obtain ⟨k, w⟩ := e
    have hmem := List.mem_of_find?_eq_some hf
    have hpred := List.find?_some hf
    have hk : k = key := by simpa using hpred
    have hw : w = c := by simpa [mapGet, hf] using h
    rw [← hk, ← hw]
    exact hmem

/-- A map of freshly inserted entries answers a lookup exactly for the
inserted keys. -/
lemma getCached_entries_isSome {R : Type} (now : Nat) (L : List (Str × List R × Nat))
    (key : Str) (hfresh : ∀ it ∈ L, now - it.2.2 < CACHE_TTL) :
    ((getCachedSearchResults now key (L.map entryOf)).1).isSome ↔ key ∈ L.map Prod.fst := by
  cases hg : mapGet key (L.map entryOf) with
  | none =>
    simp only [getCachedSearchResults, hg, Option.isSome_none, Bool.false_eq_true, false_iff]
    intro hk
    obtain ⟨it, hit, hkey⟩ := List.mem_map.mp hk
    exact (mapGet_none_iff.mp hg) (entryOf it) (List.mem_map_of_mem entryOf hit) hkey
  | some c =>
    obtain ⟨it, hit, hentry⟩ := List.mem_map.mp (mapGet_eq_some_mem hg)
    have hts : c.timestamp = it.2.2 := by
      have := congrArg Prod.snd hentry
      simp only [entryOf] at this
      rw [← this]
    have hkey : it.1 = key := by
      have := congrArg Prod.fst hentry
      simp only [entryOf] at this
      rw [this]
    simp only [getCachedSearchResults, hg]
    rw [if_pos (by rw [hts]; exact hfresh it hit)]
    simp only [Option.isSome_some, true_iff]
    exact hkey ▸ List.mem_map_of_mem Prod.fst hit

/-- C9: starting from an empty cache, inserting `CACHE_SIZE + 1` distinct
nonempty query keys (all fresh at lookup time) leaves exactly the
most-recently-inserted `CACHE_SIZE` keys retrievable — the oldest key is
evicted at capacity — and independently, a cached entry whose age reaches the
TTL is a miss even while present. -/
theorem cache_eviction {R : Type} (items : List (Str × List R × Nat)) (now : Nat)
    (hlen : items.length = CACHE_SIZE + 1)
    (hnodup : (items.map Prod.fst).Nodup)
    (hne : ∀ it ∈ items, it.1 ≠ [])
    (hfresh : ∀ it ∈ items, now - it.2.2 < CACHE_TTL) :
    (∀ key, ((getCachedSearchResults now key
        (insertAll items ([] : List (Str × CachedSearch R)))).1).isSome ↔
      key ∈ (items.map Prod.fst).tail) ∧
    (∀ (m : List (Str × CachedSearch R)) (key : Str) (c : CachedSearch R),
      mapGet key m = some c → CACHE_TTL ≤ now - c.timestamp →
      (getCachedSearchResults now key m).1 = none) := by
  constructor
  · rcases List.eq_nil_or_concat items with rfl | ⟨first, last, rfl⟩
    · simp [CACHE_SIZE] at hlen
    · rw [List.concat_eq_append] at *
      have hfl : first.length = 50 := by
        simp only [List.length_append, List.length_singleton, CACHE_SIZE] at hlen
        omega
      cases hfirst : first with
      | nil => rw [hfirst] at hfl; simp at hfl
      | cons f0 frest =>
        subst hfirst
        have hnd50 : ((f0 :: frest).map Prod.fst).Nodup := by
          rw [List.map_append] at hnodup
          exact hnodup.of_append_left
        have hm50 : insertAll (f0 :: frest) ([] : List (Str × CachedSearch R))
            = (f0 :: frest).map entryOf :=
          insertAll_under_capacity (f0 :: frest) [] (by simp [hfl, CACHE_SIZE])
            (by simp) hnd50
        have hdisj : ∀ it ∈ f0 :: frest, it.1 ≠ last.1 := by
          rw [List.map_append, List.nodup_append] at hnodup
          intro it hit heq
          exact hnodup.2.2 (List.mem_map_of_mem Prod.fst hit) (by simp [heq])
        have hlast : insertAll ((f0 :: frest) ++ [last]) ([] : List (Str × CachedSearch R))
            = (frest ++ [last]).map entryOf := by
          rw [insertAll_split, hm50]
          show cacheSearchResults last.2.2 last.1 last.2.1 ((f0 :: frest).map entryOf)
              = (frest ++ [last]).map entryOf
          have hcap : CACHE_SIZE ≤ ((f0 :: frest).map entryOf).length := by
            simp only [List.length_map]
            rw [hfl]
            decide
          have hdel : cacheSearchResults last.2.2 last.1 last.2.1 ((f0 :: frest).map entryOf)
              = mapSet last.1 ⟨last.2.1, last.2.2⟩ (frest.map entryOf) := by
            have hfrest : frest.length = 49 := by
              have h50 := hfl
              simp only [List.length_cons] at h50
              omega
            simp only [cacheSearchResults, List.map_cons, entryOf, hcap, if_true]
            rw [if_neg (hne f0 (by simp))]
            simp only [mapDelete, beq_self_eq_true, if_true]
            rw [if_pos (by simp [CACHE_SIZE, hfrest])]
          rw [hdel, List.map_append]
          refine mapSet_append ?_
          intro e he
          obtain ⟨it, hit, hrfl⟩ := List.mem_map.mp he
          rw [← hrfl]
          exact hdisj it (List.mem_cons_of_mem _ hit)
        intro key
        rw [hlast]
        have hfresh' : ∀ it ∈ frest ++ [last], now - it.2.2 < CACHE_TTL := by
          intro it hit
          refine hfresh it ?_
          rcases List.mem_append.mp hit with h | h
          · exact List.mem_append_left _ (List.mem_cons_of_mem _ h)
          · exact List.mem_append_right _ h
        rw [getCached_entries_isSome now (frest ++ [last]) key hfresh']
        simp [List.map_append]
  · intro m key c hg hstale
    simp only [getCachedSearchResults, hg]
    rw [if_neg (by omega)]

/-- Witness for `cache_eviction`: 51 distinct single-character keys inserted
at time 0 and looked up at time 0. -/
theorem cache_eviction_witness :
    (itemsC9.length = CACHE_SIZE + 1 ∧ (itemsC9.map Prod.fst).Nodup ∧
      (∀ it ∈ itemsC9, it.1 ≠ []) ∧ (∀ it ∈ itemsC9, 0 - it.2.2 < CACHE_TTL)) ∧
    (∀ key, ((getCachedSearchResults 0 key
        (insertAll itemsC9 ([] : List (Str × CachedSearch Nat)))).1).isSome ↔
      key ∈ (itemsC9.map Prod.fst).tail) :=
  ⟨⟨by decide, by decide, by decide, by decide⟩,
    (cache_eviction itemsC9 0 (by decide) (by decide) (by decide) (by decide)).1⟩

/-! ### C10: the two execution strategies agree -/

/-- C10: for every query, match mode, page snapshot and book list, the
worker-side scan and the inline main-thread fallback return identical result
arrays, so callers cannot observe which execution strategy ran. -/
theorem worker_mainThread_equivalent (query : Str) (mode : SearchMode)
    (pages : List Page) (books : List BookRef) :
    performSearchWorker query mode pages books =
      performSearchMainThread query mode pages books :=
  rfl

end HadithHub
